import Mathlib

/-!
Sobel edge filter (`sobel.c`): embedding and verified properties

The C program is embedded as follows.

* `unsigned char*` buffers are memories `Nat → Nat` indexed from the pointer
  (the code never knows a length; `load_image` allocates `3*width*height`
  bytes for the input and `main` allocates `width*height` for the output).
  A read past the allocated bytes is resolved by whatever the memory holds at
  that index; that such reads happen is settled separately through the list of
  indices a pixel reads (`read_indices`).
* `int` values are `Nat` (dimensions, rows, indices: all non-negative on the
  paths considered) or `Int` (the accumulators `gx`, `gy`).  With samples in
  `0..255` no 32-bit overflow occurs in `gx*gx + gy*gy`.
* `process_image` is explicit state passing: it returns the thread arguments
  with the output memory updated.
* Files are lists of bytes.  `exit(1)` is `Except.error 1`.  `fgets`, the
  `%d` directives of `fscanf` and `fread` are modelled on the bytes of the
  file; whether `fopen` succeeds and what uninitialised variables hold are
  parameters.  The `fwrite` and `fread` counts are computed in 32-bit `int`.
-/

namespace Sobel

/-! ## Definitions from the source -/

/-- Line 7: `#define MAX_THREADS 16`. -/
def MAX_THREADS : Nat := 16

/-- Lines 11-18: the argument record handed to a worker. -/
structure thread_args_t where
  start_row : Nat
  end_row : Nat
  width : Nat
  height : Nat
  input_data : Nat → Nat
  output_data : Nat → Nat

/-- Lines 69-78: the accumulators `(gx, gy)` of pixel `(x, y)`.  Both start at
0; each of the two guarded blocks adds its three weighted red samples to `gx`
and its three to `gy`.  `input_data[3*k]` is the red sample of pixel `k`. -/
def gradient (width height : Nat) (input_data : Nat → Nat) (x y : Nat) : Int × Int :=
  let g0 : Int × Int := (0, 0)
  let g1 : Int × Int :=
    if 0 < x ∧ 0 < y then
      (g0.1 + (-1 * (input_data (3*((y-1)*width+x-1)) : Int)
                + 0 * (input_data (3*((y-1)*width+x)) : Int)
                + 1 * (input_data (3*((y-1)*width+x+1)) : Int)),
       g0.2 + (-1 * (input_data (3*((y-1)*width+x-1)) : Int)
                + -2 * (input_data (3*((y)*width+x-1)) : Int)
                + -1 * (input_data (3*((y+1)*width+x-1)) : Int)))
    else g0
  let g2 : Int × Int :=
    if 0 < x ∧ (y : Int) < (height : Int) - 1 then
      (g1.1 + (-2 * (input_data (3*((y)*width+x-1)) : Int)
                + 0 * (input_data (3*((y)*width+x)) : Int)
                + 2 * (input_data (3*((y)*width+x+1)) : Int)),
       g1.2 + (1 * (input_data (3*((y)*width+x+1)) : Int)
                + 2 * (input_data (3*((y+1)*width+x)) : Int)
                + 1 * (input_data (3*((y+1)*width+x+1)) : Int)))
    else g1
  g2

/-- Lines 71-78: the indices of `input_data` that the two guarded blocks read
for pixel `(x, y)`, in program order (each operand of each sum, also those
with coefficient 0). -/
def read_indices (width height x y : Nat) : List Nat :=
  (if 0 < x ∧ 0 < y then
     [3*((y-1)*width+x-1), 3*((y-1)*width+x), 3*((y-1)*width+x+1),
      3*((y-1)*width+x-1), 3*((y)*width+x-1), 3*((y+1)*width+x-1)]
   else []) ++
  (if 0 < x ∧ (y : Int) < (height : Int) - 1 then
     [3*((y)*width+x-1), 3*((y)*width+x), 3*((y)*width+x+1),
      3*((y)*width+x+1), 3*((y+1)*width+x), 3*((y+1)*width+x+1)]
   else [])

/-- Line 80, `sqrt(gx*gx + gy*gy) / 3.0` followed by the truncation of the
conversion to an integer type: the integer part of the quotient.

`gx*gx + gy*gy` is an `int` `n` with `0 ≤ n ≤ 1625625`, converted exactly to
`double`.  IEEE `sqrt` is correctly rounded; for `s = Nat.sqrt n` it returns
exactly `s` when `n = s*s`, and otherwise a value in `[s, s+1 - 1/(2s+2)]`.
Dividing by `3.0` (correctly rounded) and discarding the fraction therefore
gives `s / 3` (integer division), which is `⌊√n / 3⌋`. -/
def magnitude (gx gy : Int) : Nat :=
  Nat.sqrt (gx*gx + gy*gy).toNat / 3

/-- Line 80, the cast `(unsigned char)` applied to the truncated quotient: the
code has no clamp.  For a quotient in `0..255` the result is the quotient.
For a larger quotient (C leaves the conversion of an out-of-range floating
value undefined) the compiled conversion goes through a wider integer
register and the byte store keeps the low 8 bits. -/
def to_uchar (q : Nat) : Nat := q % 256

/-- Lines 69-80: the byte stored for pixel `(x, y)`. -/
def pixel_value (width height : Nat) (input_data : Nat → Nat) (x y : Nat) : Nat :=
  to_uchar (magnitude (gradient width height input_data x y).1
                      (gradient width height input_data x y).2)

/-- Line 80: the assignment `output_data[y*width+x] = v`. -/
def store (output_data : Nat → Nat) (idx v : Nat) : Nat → Nat :=
  fun j => if j = idx then v else output_data j

/-- Lines 68-81: the inner loop `for (x = 0; x < width; x++)` for row `y`. -/
def process_row (width height : Nat) (input_data : Nat → Nat) (y : Nat)
    (output_data : Nat → Nat) : Nat → Nat :=
  (List.range width).foldl
    (fun out x => store out (y*width+x) (pixel_value width height input_data x y))
    output_data

/-- Lines 58-84: `process_image`, the outer loop
`for (y = start_row; y < end_row; y++)`.  The input memory is only read. -/
def process_image (ta : thread_args_t) : thread_args_t :=
  { ta with
    output_data :=
      (List.range' ta.start_row (ta.end_row - ta.start_row)).foldl
        (fun out y => process_row ta.width ta.height ta.input_data y out)
        ta.output_data }

/-- Line 103: `rows_per_thread = height / num_threads`. -/
def rows_per_thread (height num_threads : Nat) : Nat := height / num_threads

/-- Line 107: `start_row = i * rows_per_thread`. -/
def band_start (height num_threads i : Nat) : Nat :=
  i * rows_per_thread height num_threads

/-- Line 108: `end_row = (i == num_threads-1) ? height : (i+1) * rows_per_thread`. -/
def band_end (height num_threads i : Nat) : Nat :=
  if i = num_threads - 1 then height else (i+1) * rows_per_thread height num_threads

/-- Lines 107-112: the arguments of worker `i`; `num_threads` is the constant
`MAX_THREADS` in `main` and a parameter here. -/
def thread_args (width height num_threads : Nat) (input_data output_data : Nat → Nat)
    (i : Nat) : thread_args_t :=
  { start_row := band_start height num_threads i
    end_row := band_end height num_threads i
    width := width
    height := height
    input_data := input_data
    output_data := output_data }

/-- Lines 105-123: the workers listed in `order` run one after the other on
the shared output memory (each is `process_image` on its own band). -/
def run_workers (width height num_threads : Nat) (input_data : Nat → Nat)
    (order : List Nat) (output_data : Nat → Nat) : Nat → Nat :=
  order.foldl
    (fun out i => (process_image (thread_args width height num_threads input_data out i)).output_data)
    output_data

/-- Lines 102-123 of `main`: workers `0 .. num_threads-1` in index order. -/
def run_main (width height num_threads : Nat) (input_data output_data : Nat → Nat) : Nat → Nat :=
  run_workers width height num_threads input_data (List.range num_threads) output_data

/-- Lines 68-81 as a log: the assignments `(index, byte)` the inner loop makes
for row `y`, in program order. -/
def row_trace (width height : Nat) (input_data : Nat → Nat) (y : Nat) : List (Nat × Nat) :=
  (List.range width).map (fun x => (y*width+x, pixel_value width height input_data x y))

/-- Lines 67-82 as a log: the assignments `process_image` makes, row by row. -/
def image_trace (ta : thread_args_t) : List (Nat × Nat) :=
  (List.range' ta.start_row (ta.end_row - ta.start_row)).flatMap
    (fun y => row_trace ta.width ta.height ta.input_data y)

/-- Lines 105-123 as a log: the assignments of the whole run, worker by
worker. -/
def run_trace (width height num_threads : Nat) (input_data output_data : Nat → Nat) :
    List (Nat × Nat) :=
  (List.range num_threads).flatMap
    (fun i => image_trace (thread_args width height num_threads input_data output_data i))

/-- Carrying out a log of assignments on an output memory. -/
def replay (output_data : Nat → Nat) (log : List (Nat × Nat)) : Nat → Nat :=
  log.foldl (fun out p => store out p.1 p.2) output_data

/-- A product or sum computed in `int`: the mathematical value reduced to 32
bits in two's complement (signed overflow is undefined in C; the compiled
`imul` wraps). -/
def int32_wrap (n : Int) : Int := (n + 2147483648) % 4294967296 - 2147483648

/-- The conversion of an `int` to the 64-bit `size_t`: reduction modulo 2^64. -/
def size_t_of_int (n : Int) : Nat := (n % 18446744073709551616).toNat

/-- Lines 46-55: `save_image`.  `width` and `height` are `int` values in
`0 .. 2^31 - 1`; `fopen_ok` is whether `fopen(filename, "wb")` returned a
stream.  On failure the program exits with status 1 (`Except.error 1`);
otherwise the bytes written are those of
`fprintf(f, "P5\n%d %d\n255\n", width, height)` (80 = `P`, 53 = `5`,
10 = newline, 32 = blank, 50 = `2`; `%d` prints the decimal digits) followed
by those of `fwrite(data, 1, width * height, f)`, where the count is the
product computed in `int` and converted to `size_t`. -/
def save_image (fopen_ok : Bool) (width height : Nat) (data : Nat → Nat) :
    Except Nat (List Nat) :=
  if fopen_ok = false then Except.error 1
  else
    Except.ok
      (([80, 53, 10] ++ (Nat.toDigits 10 width).map Char.toNat ++ [32]
          ++ (Nat.toDigits 10 height).map Char.toNat ++ [10, 50, 53, 53, 10])
        ++ (List.range (size_t_of_int (int32_wrap ((width : Int) * (height : Int))))).map data)

/-- The range of `long`, in which the library accumulates a number: values
outside saturate. -/
def long_clamp (n : Int) : Int :=
  max (-9223372036854775808) (min n 9223372036854775807)

/-- Spec §4.1, horizontal mask `Gx`, rows indexed by `dy = -1,0,1`. -/
def spec_Gx : List (List Int) := [[-1, 0, 1], [-2, 0, 2], [-1, 0, 1]]

/-- Spec §4.1, vertical mask `Gy`, rows indexed by `dy = -1,0,1`. -/
def spec_Gy : List (List Int) := [[-1, -2, -1], [0, 0, 0], [1, 2, 1]]

/-- Coefficient of a mask at offset `(dx, dy)`, both in `-1..1`. -/
def spec_coeff (mask : List (List Int)) (dx dy : Int) : Int :=
  (mask.getD (dy + 1).toNat []).getD (dx + 1).toNat 0

/-- Spec §4.1 boundary policy: the red sample at `(x+dx, y+dy)`, and zero for a
neighbour outside `[0,width) × [0,height)`. -/
def spec_tap (width height : Nat) (input_data : Nat → Nat) (x y : Nat) (dx dy : Int) : Int :=
  if 0 ≤ (x : Int) + dx ∧ (x : Int) + dx < width ∧ 0 ≤ (y : Int) + dy ∧ (y : Int) + dy < height then
    (input_data (3 * ((((y : Int) + dy).toNat) * width + ((x : Int) + dx).toNat)) : Int)
  else 0

/-- Spec §4.1: the 3×3 convolution of the red samples around `(x, y)` with a
mask, out-of-image taps contributing zero. -/
def spec_conv (mask : List (List Int)) (width height : Nat) (input_data : Nat → Nat)
    (x y : Nat) : Int :=
  (([-1, 0, 1] : List Int).map (fun dy =>
    (([-1, 0, 1] : List Int).map (fun dx =>
      spec_coeff mask dx dy * spec_tap width height input_data x y dx dy)).sum)).sum

/-- Spec §4.1: the output byte for the mask responses, with the same
truncation and conversion as the code. -/
def spec_pixel (width height : Nat) (input_data : Nat → Nat) (x y : Nat) : Nat :=
  to_uchar (magnitude (spec_conv spec_Gx width height input_data x y)
                      (spec_conv spec_Gy width height input_data x y))

/-- A memory holding the red samples `reds` (pixel `k` at byte `3*k`), with
green and blue bytes and everything past the list equal to 0. -/
def red_image (reds : List Nat) : Nat → Nat :=
  fun i => if i % 3 = 0 then reds.getD (i / 3) 0 else 0

/-- A memory whose every byte is `v`. -/
def uniform_image (v : Nat) : Nat → Nat := fun _ => v

/-! ## Helper lemmas -/

theorem sqrt_eq_of_bounds (n q : Nat) (h1 : q * q ≤ n) (h2 : n < (q + 1) * (q + 1)) :
    Nat.sqrt n = q :=
  (Nat.eq_sqrt.mpr ⟨h1, h2⟩).symm

theorem magnitude_eq (gx gy : Int) (n q : Nat) (hn : gx*gx + gy*gy = (n : Int))
    (h1 : q * q ≤ n) (h2 : n < (q + 1) * (q + 1)) : magnitude gx gy = q / 3 := by
  unfold magnitude
  rw [hn, Int.toNat_ofNat, sqrt_eq_of_bounds n q h1 h2]

/-- The integer model of line 80 is the real-valued formula `⌊√n / 3⌋`. -/
theorem floor_sqrt_div_three (n : Int) (hn : 0 ≤ n) :
    ⌊Real.sqrt (n : ℝ) / 3⌋₊ = Nat.sqrt n.toNat / 3 := by
  obtain ⟨m, rfl⟩ := Int.eq_ofNat_of_zero_le hn
  have h3 : ((3 : ℕ) : ℝ) = 3 := by norm_num
  rw [Int.toNat_ofNat, Int.cast_natCast, ← h3, Nat.floor_div_nat,
    Real.nat_floor_real_sqrt_eq_nat_sqrt]

theorem sum_sq_nonneg (gx gy : Int) : 0 ≤ gx*gx + gy*gy :=
  add_nonneg (mul_self_nonneg gx) (mul_self_nonneg gy)

theorem magnitude_eq_floor (gx gy : Int) :
    magnitude gx gy = ⌊Real.sqrt ((gx*gx + gy*gy : Int) : ℝ) / 3⌋₊ := by
  rw [floor_sqrt_div_three _ (sum_sq_nonneg gx gy)]
  rfl

/-- The accumulators depend on the input memory only through `read_indices`. -/
theorem gradient_congr (width height x y : Nat) (a b : Nat → Nat)
    (hab : ∀ i ∈ read_indices width height x y, a i = b i) :
    gradient width height a x y = gradient width height b x y := by
  unfold read_indices at hab
  unfold gradient
  by_cases h1 : 0 < x ∧ 0 < y <;> by_cases h2 : 0 < x ∧ (y : Int) < (height : Int) - 1
  · rw [if_pos h1, if_pos h2] at hab
    simp only [if_pos h1, if_pos h2]
    rw [hab (3*((y-1)*width+x-1)) (by simp), hab (3*((y-1)*width+x)) (by simp),
      hab (3*((y-1)*width+x+1)) (by simp), hab (3*((y)*width+x-1)) (by simp),
      hab (3*((y+1)*width+x-1)) (by simp), hab (3*((y)*width+x)) (by simp),
      hab (3*((y)*width+x+1)) (by simp), hab (3*((y+1)*width+x)) (by simp),
      hab (3*((y+1)*width+x+1)) (by simp)]
  · rw [if_pos h1, if_neg h2] at hab
    simp only [if_pos h1, if_neg h2]
    rw [hab (3*((y-1)*width+x-1)) (by simp), hab (3*((y-1)*width+x)) (by simp),
      hab (3*((y-1)*width+x+1)) (by simp), hab (3*((y)*width+x-1)) (by simp),
      hab (3*((y+1)*width+x-1)) (by simp)]
  · rw [if_neg h1, if_pos h2] at hab
    simp only [if_neg h1, if_pos h2]
    rw [hab (3*((y)*width+x-1)) (by simp), hab (3*((y)*width+x)) (by simp),
      hab (3*((y)*width+x+1)) (by simp), hab (3*((y+1)*width+x)) (by simp),
      hab (3*((y+1)*width+x+1)) (by simp)]
  · simp only [if_neg h1, if_neg h2]

/-- What the two guarded blocks add up to when both guards hold (in
particular at every interior pixel): with `I k` the red sample of pixel `k`,
`gx = -I(x-1,y-1) + I(x+1,y-1) - 2 I(x-1,y) + 2 I(x+1,y)` and
`gy = -I(x-1,y-1) - 2 I(x-1,y) - I(x-1,y+1) + I(x+1,y) + 2 I(x,y+1) + I(x+1,y+1)`. -/
theorem gradient_both_blocks (width height : Nat) (input_data : Nat → Nat) (x y : Nat)
    (hx : 0 < x) (hy : 0 < y) (hh : y + 1 < height) :
    gradient width height input_data x y =
      (-(input_data (3*((y-1)*width+x-1)) : Int) + (input_data (3*((y-1)*width+x+1)) : Int)
        - 2 * (input_data (3*(y*width+x-1)) : Int) + 2 * (input_data (3*(y*width+x+1)) : Int),
       -(input_data (3*((y-1)*width+x-1)) : Int) - 2 * (input_data (3*(y*width+x-1)) : Int)
        - (input_data (3*((y+1)*width+x-1)) : Int) + (input_data (3*(y*width+x+1)) : Int)
        + 2 * (input_data (3*((y+1)*width+x)) : Int)
        + (input_data (3*((y+1)*width+x+1)) : Int)) := by
  unfold gradient
  have h2 : (y : Int) < (height : Int) - 1 := by omega
  simp only [if_pos (And.intro hx hy), if_pos (And.intro hx h2)]
  refine Prod.ext ?_ ?_ <;> simp only <;> ring

/-- In the left column, and in an image of height 1, no block runs. -/
theorem gradient_no_block (width height : Nat) (input_data : Nat → Nat) (x y : Nat)
    (h : x = 0 ∨ (y = 0 ∧ height ≤ 1)) :
    gradient width height input_data x y = (0, 0) := by
  unfold gradient
  have h1 : ¬ (0 < x ∧ 0 < y) := by omega
  have h2 : ¬ (0 < x ∧ (y : Int) < (height : Int) - 1) := by omega
  simp only [if_neg h1, if_neg h2]

theorem pixel_value_eq (width height : Nat) (input_data : Nat → Nat) (x y : Nat)
    (gx gy : Int) (q : Nat) (hg : gradient width height input_data x y = (gx, gy))
    (hm : magnitude gx gy = q) : pixel_value width height input_data x y = q % 256 := by
  unfold pixel_value to_uchar
  rw [hg, hm]

theorem spec_pixel_eq (width height : Nat) (input_data : Nat → Nat) (x y : Nat)
    (gx gy : Int) (q : Nat) (hx : spec_conv spec_Gx width height input_data x y = gx)
    (hy : spec_conv spec_Gy width height input_data x y = gy)
    (hm : magnitude gx gy = q) : spec_pixel width height input_data x y = q % 256 := by
  unfold spec_pixel to_uchar
  rw [hx, hy, hm]

theorem band_end_of_not_last (height num_threads i : Nat) (hi : i + 1 < num_threads) :
    band_end height num_threads i = (i + 1) * (height / num_threads) := by
  unfold band_end rows_per_thread
  rw [if_neg (by omega)]

theorem band_end_last (height num_threads : Nat) :
    band_end height num_threads (num_threads - 1) = height := by
  unfold band_end
  rw [if_pos rfl]

theorem band_start_eq (height num_threads i : Nat) :
    band_start height num_threads i = i * (height / num_threads) := rfl

/-- The bands before the last one end at or before `height`. -/
theorem mul_div_le_of_le (height num_threads k : Nat) (hk : k ≤ num_threads) :
    k * (height / num_threads) ≤ height :=
  le_trans (Nat.mul_le_mul_right _ hk) (Nat.mul_div_le height num_threads)

theorem band_start_le_end (height num_threads i : Nat) (hi : i < num_threads) :
    band_start height num_threads i ≤ band_end height num_threads i := by
  rw [band_start_eq]
  by_cases hl : i + 1 < num_threads
  · rw [band_end_of_not_last _ _ _ hl]
    exact Nat.mul_le_mul_right _ (Nat.le_succ i)
  · have : i = num_threads - 1 := by omega
    rw [this, band_end_last]
    exact mul_div_le_of_le height num_threads _ (by omega)

theorem band_end_le_height (height num_threads i : Nat) (hi : i < num_threads) :
    band_end height num_threads i ≤ height := by
  by_cases hl : i + 1 < num_threads
  · rw [band_end_of_not_last _ _ _ hl]
    exact mul_div_le_of_le height num_threads _ (by omega)
  · have : i = num_threads - 1 := by omega
    rw [this, band_end_last]

/-- An earlier band ends at or before the start of a later one. -/
theorem band_end_le_start (height num_threads i j : Nat) (hij : i < j)
    (hj : j < num_threads) :
    band_end height num_threads i ≤ band_start height num_threads j := by
  rw [band_end_of_not_last _ _ _ (by omega), band_start_eq]
  exact Nat.mul_le_mul_right _ hij

theorem band_disjoint (height num_threads i j r : Nat) (hi : i < num_threads)
    (hj : j < num_threads) (hne : i ≠ j)
    (hri : band_start height num_threads i ≤ r ∧ r < band_end height num_threads i)
    (hrj : band_start height num_threads j ≤ r ∧ r < band_end height num_threads j) :
    False := by
  rcases Nat.lt_or_gt_of_ne hne with h | h
  · have := band_end_le_start height num_threads i j h hj
    omega
  · have := band_end_le_start height num_threads j i h hi
    omega

/-- Every row below `height` lies in some band. -/
theorem band_cover (height num_threads r : Nat) (hn : 1 ≤ num_threads) (hr : r < height) :
    ∃ i, i < num_threads ∧
      band_start height num_threads i ≤ r ∧ r < band_end height num_threads i := by
  by_cases hlast : (num_threads - 1) * (height / num_threads) ≤ r
  · exact ⟨num_threads - 1, by omega, hlast, by rw [band_end_last]; exact hr⟩
  · have hq : 0 < height / num_threads := by
      rcases Nat.eq_zero_or_pos (height / num_threads) with h0 | h0
      · rw [h0] at hlast; simp at hlast
      · exact h0
    have hlt : r / (height / num_threads) < num_threads - 1 := by
      rw [Nat.div_lt_iff_lt_mul hq]; omega
    refine ⟨r / (height / num_threads), by omega, ?_, ?_⟩
    · rw [band_start_eq]; exact Nat.div_mul_le_self r _
    · rw [band_end_of_not_last _ _ _ (by omega)]
      rw [Nat.mul_comm]
      exact Nat.lt_mul_div_succ r hq

theorem read_indices_mul_three (width height x y i : Nat)
    (hi : i ∈ read_indices width height x y) : ∃ k, i = 3 * k := by
  unfold read_indices at hi
  rw [List.mem_append] at hi
  rcases hi with hi | hi
  · split at hi
    · simp only [List.mem_cons, List.mem_singleton, List.not_mem_nil, or_false] at hi
      rcases hi with rfl | rfl | rfl | rfl | rfl | rfl <;> exact ⟨_, rfl⟩
    · simp at hi
  · split at hi
    · simp only [List.mem_cons, List.mem_singleton, List.not_mem_nil, or_false] at hi
      rcases hi with rfl | rfl | rfl | rfl | rfl | rfl <;> exact ⟨_, rfl⟩
    · simp at hi

theorem store_apply (output_data : Nat → Nat) (idx v j : Nat) :
    store output_data idx v j = if j = idx then v else output_data j := rfl

/-- The first `k` iterations of the inner loop. -/
theorem row_fold_apply (width height : Nat) (input_data : Nat → Nat) (y k : Nat)
    (output_data : Nat → Nat) (j : Nat) :
    ((List.range k).foldl
      (fun out x => store out (y*width+x) (pixel_value width height input_data x y))
      output_data) j
      = if y*width ≤ j ∧ j < y*width + k
        then pixel_value width height input_data (j - y*width) y else output_data j := by
  induction k with
  | zero =>
    rw [List.range_zero, List.foldl_nil, if_neg (by omega)]
  | succ k ih =>
    rw [List.range_succ, List.foldl_append, List.foldl_cons, List.foldl_nil, store_apply, ih]
    by_cases hj : j = y*width + k
    · rw [if_pos hj, if_pos (by omega)]
      subst hj
      rw [Nat.add_sub_cancel_left]
    · rw [if_neg hj]
      by_cases h1 : y*width ≤ j ∧ j < y*width + k
      · rw [if_pos h1, if_pos (by omega)]
      · rw [if_neg h1, if_neg (by omega)]

theorem row_index (width y j : Nat) (h1 : y*width ≤ j) (h2 : j < y*width + width) :
    j / width = y ∧ j % width = j - y*width := by
  have hw : 0 < width := by
    rcases Nat.eq_zero_or_pos width with h0 | h0
    · subst h0; omega
    · exact h0
  have hd : j / width = y :=
    Nat.div_eq_of_lt_le h1 (by rw [Nat.succ_mul]; exact h2)
  refine ⟨hd, ?_⟩
  have h := Nat.div_add_mod j width
  rw [hd, Nat.mul_comm] at h
  omega

theorem process_row_apply (width height : Nat) (input_data : Nat → Nat) (y : Nat)
    (output_data : Nat → Nat) (j : Nat) :
    process_row width height input_data y output_data j
      = if y*width ≤ j ∧ j < y*width + width
        then pixel_value width height input_data (j % width) (j / width)
        else output_data j := by
  unfold process_row
  rw [row_fold_apply]
  by_cases h : y*width ≤ j ∧ j < y*width + width
  · rw [if_pos h, if_pos h, (row_index width y j h.1 h.2).1, (row_index width y j h.1 h.2).2]
  · rw [if_neg h, if_neg h]

/-- The iterations `y = s, ..., s+k-1` of the outer loop. -/
theorem rows_fold_apply (width height : Nat) (input_data : Nat → Nat) (k : Nat) :
    ∀ (s : Nat) (output_data : Nat → Nat) (j : Nat),
    ((List.range' s k).foldl
      (fun out y => process_row width height input_data y out) output_data) j
      = if s*width ≤ j ∧ j < (s+k)*width
        then pixel_value width height input_data (j % width) (j / width)
        else output_data j := by
  induction k with
  | zero =>
    intro s output_data j
    rw [List.range'_zero, List.foldl_nil, if_neg (by rw [Nat.add_zero]; omega)]
  | succ k ih =>
    intro s output_data j
    rw [List.range'_succ, List.foldl_cons, ih, process_row_apply]
    have e1 : (s+1)*width = s*width + width := Nat.succ_mul s width
    have e2 : (s+1+k)*width = s*width + width + k*width := by ring
    have e3 : (s+(k+1))*width = s*width + width + k*width := by ring
    rw [e1, e2, e3]
    by_cases h1 : s*width + width ≤ j ∧ j < s*width + width + k*width
    · rw [if_pos h1, if_pos (by omega)]
    · rw [if_neg h1]
      by_cases h2 : s*width ≤ j ∧ j < s*width + width
      · rw [if_pos h2, if_pos (by omega)]
      · rw [if_neg h2, if_neg (by omega)]

/-- Closed form of `process_image`: the bytes of the band's rows hold the
pixel values, every other byte is as before. -/
theorem process_image_apply (ta : thread_args_t) (j : Nat) :
    (process_image ta).output_data j
      = if ta.start_row * ta.width ≤ j ∧ j < ta.end_row * ta.width
        then pixel_value ta.width ta.height ta.input_data (j % ta.width) (j / ta.width)
        else ta.output_data j := by
  unfold process_image
  simp only
  rw [rows_fold_apply]
  by_cases hse : ta.start_row ≤ ta.end_row
  · rw [Nat.add_sub_cancel' hse]
  · have hk : ta.end_row - ta.start_row = 0 := by omega
    have hmul : ta.end_row * ta.width ≤ ta.start_row * ta.width :=
      Nat.mul_le_mul_right _ (by omega)
    rw [hk, Nat.add_zero, if_neg (by omega), if_neg (by omega)]

theorem run_workers_cons (width height num_threads : Nat) (input_data : Nat → Nat)
    (i : Nat) (rest : List Nat) (output_data : Nat → Nat) :
    run_workers width height num_threads input_data (i :: rest) output_data
      = run_workers width height num_threads input_data rest
          (process_image (thread_args width height num_threads input_data output_data i)).output_data :=
  rfl

/-- A byte outside every listed band is left as it was. -/
theorem run_workers_outside (width height num_threads : Nat) (input_data : Nat → Nat)
    (order : List Nat) :
    ∀ (output_data : Nat → Nat) (j : Nat),
    (∀ i ∈ order, ¬ (band_start height num_threads i * width ≤ j ∧
        j < band_end height num_threads i * width)) →
    run_workers width height num_threads input_data order output_data j = output_data j := by
  induction order with
  | nil => intro output_data j _; rfl
  | cons i rest ih =>
    intro output_data j hno
    rw [run_workers_cons, ih _ j (fun i' hi' => hno i' (List.mem_cons_of_mem _ hi')),
      process_image_apply]
    exact if_neg (hno i (List.mem_cons_self _ _))

/-- A byte inside some listed band holds its pixel value. -/
theorem run_workers_inside (width height num_threads : Nat) (input_data : Nat → Nat)
    (order : List Nat) :
    ∀ (output_data : Nat → Nat) (j : Nat),
    (∃ i ∈ order, band_start height num_threads i * width ≤ j ∧
        j < band_end height num_threads i * width) →
    run_workers width height num_threads input_data order output_data j
      = pixel_value width height input_data (j % width) (j / width) := by
  induction order with
  | nil => intro output_data j h; obtain ⟨i, hi, -⟩ := h; simp at hi
  | cons i rest ih =>
    intro output_data j h
    rw [run_workers_cons]
    by_cases hrest : ∃ i' ∈ rest, band_start height num_threads i' * width ≤ j ∧
        j < band_end height num_threads i' * width
    · exact ih _ j hrest
    · have hi : band_start height num_threads i * width ≤ j ∧
          j < band_end height num_threads i * width := by
        obtain ⟨i', hi', hband⟩ := h
        rcases List.mem_cons.mp hi' with rfl | hmem
        · exact hband
        · exact absurd ⟨i', hmem, hband⟩ hrest
      rw [run_workers_outside _ _ _ _ rest _ j (fun i' hi' hb => hrest ⟨i', hi', hb⟩),
        process_image_apply]
      exact if_pos hi

/-- A byte index below `height*width` lies in the rows of some band. -/
theorem band_cover_index (width height num_threads j : Nat) (hn : 1 ≤ num_threads)
    (hj : j < height * width) :
    ∃ i, i < num_threads ∧ band_start height num_threads i * width ≤ j ∧
      j < band_end height num_threads i * width := by
  have hw : 0 < width := by
    rcases Nat.eq_zero_or_pos width with h0 | h0
    · subst h0; simp at hj
    · exact h0
  obtain ⟨i, hi, h1, h2⟩ := band_cover height num_threads (j / width) hn
    ((Nat.div_lt_iff_lt_mul hw).mpr hj)
  exact ⟨i, hi, (Nat.le_div_iff_mul_le hw).mp h1, (Nat.div_lt_iff_lt_mul hw).mp h2⟩

/-- With byte-valued memory the accumulators stay within ±765 and ±1020. -/
theorem gradient_bounds (width height : Nat) (input_data : Nat → Nat) (x y : Nat)
    (hb : ∀ i, input_data i ≤ 255) :
    -765 ≤ (gradient width height input_data x y).1 ∧
    (gradient width height input_data x y).1 ≤ 765 ∧
    -1020 ≤ (gradient width height input_data x y).2 ∧
    (gradient width height input_data x y).2 ≤ 1020 := by
  have b1 := hb (3*((y-1)*width+x-1))
  have b2 := hb (3*((y-1)*width+x))
  have b3 := hb (3*((y-1)*width+x+1))
  have b4 := hb (3*((y)*width+x-1))
  have b5 := hb (3*((y+1)*width+x-1))
  have b6 := hb (3*((y)*width+x))
  have b7 := hb (3*((y)*width+x+1))
  have b8 := hb (3*((y+1)*width+x))
  have b9 := hb (3*((y+1)*width+x+1))
  unfold gradient
  by_cases h1 : 0 < x ∧ 0 < y <;> by_cases h2 : 0 < x ∧ (y : Int) < (height : Int) - 1
  · simp only [if_pos h1, if_pos h2]
    refine ⟨?_, ?_, ?_, ?_⟩ <;> omega
  · simp only [if_pos h1, if_neg h2]
    refine ⟨?_, ?_, ?_, ?_⟩ <;> omega
  · simp only [if_neg h1, if_pos h2]
    refine ⟨?_, ?_, ?_, ?_⟩ <;> omega
  · simp only [if_neg h1, if_neg h2]
    refine ⟨?_, ?_, ?_, ?_⟩ <;> omega

theorem sum_sq_le (gx gy : Int) (h1 : -765 ≤ gx) (h2 : gx ≤ 765) (h3 : -1020 ≤ gy)
    (h4 : gy ≤ 1020) : gx*gx + gy*gy ≤ 1625625 := by
  nlinarith [mul_nonneg (sub_nonneg.mpr h2) (sub_nonneg.mpr (neg_le.mp h1)),
    mul_nonneg (sub_nonneg.mpr h4) (sub_nonneg.mpr (neg_le.mp h3))]

theorem magnitude_le (gx gy : Int) (h : gx*gx + gy*gy ≤ 1625625) : magnitude gx gy ≤ 425 := by
  unfold magnitude
  have hn : (gx*gx + gy*gy).toNat ≤ 1625625 := by omega
  have hs : Nat.sqrt (gx*gx + gy*gy).toNat ≤ 1275 := by
    have := Nat.sqrt_le_sqrt hn
    rwa [sqrt_eq_of_bounds 1625625 1275 (by norm_num) (by norm_num)] at this
  omega

theorem magnitude_zero : magnitude 0 0 = 0 :=
  magnitude_eq 0 0 0 0 (by norm_num) (by norm_num) (by norm_num)

theorem getD_le_of_forall (l : List Nat) (b : Nat) (h : ∀ v ∈ l, v ≤ b) (k : Nat) :
    l.getD k 0 ≤ b := by
  induction l generalizing k with
  | nil => simp
  | cons a t ih =>
    cases k with
    | zero => simpa using h a (List.mem_cons_self _ _)
    | succ k => simpa using ih (fun v hv => h v (List.mem_cons_of_mem _ hv)) k

theorem red_image_le (reds : List Nat) (b : Nat) (h : ∀ v ∈ reds, v ≤ b) (i : Nat) :
    red_image reds i ≤ b := by
  unfold red_image
  split
  · exact getD_le_of_forall reds b h _
  · exact Nat.zero_le b

/-! ## The gradient kernel (C1 - C4) -/

/-- C1 (code defect): at the interior pixel (1,1) of the 3x3 image with red
rows [0,0,0], [0,0,0], [10,20,40] every index read is inside the 27-byte
buffer, the code accumulates gx = 0 and gy = 70, while the convolutions with
the masks Gx and Gy are 30 and 90. -/
theorem gradient_differs_from_mask_convolution :
    (∀ i ∈ read_indices 3 3 1 1, i < 3 * 3 * 3) ∧
    gradient 3 3 (red_image [0,0,0, 0,0,0, 10,20,40]) 1 1 = (0, 70) ∧
    spec_conv spec_Gx 3 3 (red_image [0,0,0, 0,0,0, 10,20,40]) 1 1 = 30 ∧
    spec_conv spec_Gy 3 3 (red_image [0,0,0, 0,0,0, 10,20,40]) 1 1 = 90 := by
  refine ⟨by decide, ?_, ?_, ?_⟩
  · simp [gradient, red_image]
  · simp [spec_conv, spec_Gx, spec_coeff, spec_tap, red_image]
  · simp [spec_conv, spec_Gy, spec_coeff, spec_tap, red_image]

/-- C2 (code defect): in the uniform 5x5 image of value 100 the code stores 0
at the corner pixel (0,0), where the in-bounds taps of the masks give
gx = gy = 300 and the byte 141; and in the 5x5 image that is black except for
the red sample 255 of pixel (0,2), the code accumulates (510, 255) at the
right-column pixel (4,1), reading the first pixel of the next row as its right
neighbour, where every in-bounds tap is 0. -/
theorem border_pixel_differs_from_in_bounds_taps :
    pixel_value 5 5 (uniform_image 100) 0 0 = 0 ∧
    spec_conv spec_Gx 5 5 (uniform_image 100) 0 0 = 300 ∧
    spec_conv spec_Gy 5 5 (uniform_image 100) 0 0 = 300 ∧
    spec_pixel 5 5 (uniform_image 100) 0 0 = 141 ∧
    gradient 5 5 (red_image [0,0,0,0,0, 0,0,0,0,0, 255,0,0,0,0, 0,0,0,0,0, 0,0,0,0,0]) 4 1
      = (510, 255) ∧
    spec_conv spec_Gx 5 5
      (red_image [0,0,0,0,0, 0,0,0,0,0, 255,0,0,0,0, 0,0,0,0,0, 0,0,0,0,0]) 4 1 = 0 ∧
    spec_conv spec_Gy 5 5
      (red_image [0,0,0,0,0, 0,0,0,0,0, 255,0,0,0,0, 0,0,0,0,0, 0,0,0,0,0]) 4 1 = 0 := by
  have hx : spec_conv spec_Gx 5 5 (uniform_image 100) 0 0 = 300 := by
    simp [spec_conv, spec_Gx, spec_coeff, spec_tap, uniform_image]
  have hy : spec_conv spec_Gy 5 5 (uniform_image 100) 0 0 = 300 := by
    simp [spec_conv, spec_Gy, spec_coeff, spec_tap, uniform_image]
  refine ⟨?_, hx, hy, ?_, ?_, ?_, ?_⟩
  · have hg : gradient 5 5 (uniform_image 100) 0 0 = (0, 0) := by simp [gradient]
    exact pixel_value_eq 5 5 _ 0 0 0 0 0 hg
      (magnitude_eq 0 0 0 0 (by norm_num) (by norm_num) (by norm_num))
  · exact spec_pixel_eq 5 5 _ 0 0 300 300 141 hx hy
      (magnitude_eq 300 300 180000 424 (by norm_num) (by norm_num) (by norm_num))
  · simp [gradient, red_image]
  · simp [spec_conv, spec_Gx, spec_coeff, spec_tap, red_image]
  · simp [spec_conv, spec_Gy, spec_coeff, spec_tap, red_image]

/-- C3 (counterexample): for the 3x3 image with red rows [0,0,0], [0,0,0],
[255,255,255] the code accumulates gy = 510 at the middle pixel and stores
170, so it is not the case that gy = 1020 and the stored byte is 255. -/
theorem middle_pixel_not_1020_255 :
    ¬ ((gradient 3 3 (red_image [0,0,0, 0,0,0, 255,255,255]) 1 1).1 = 0 ∧
       (gradient 3 3 (red_image [0,0,0, 0,0,0, 255,255,255]) 1 1).2 = 1020 ∧
       pixel_value 3 3 (red_image [0,0,0, 0,0,0, 255,255,255]) 1 1 = 255) := by
  have hg : gradient 3 3 (red_image [0,0,0, 0,0,0, 255,255,255]) 1 1 = (0, 510) := by
    simp [gradient, red_image]
  rw [hg]
  rintro ⟨-, h, -⟩
  exact absurd h (by decide)

/-- C3 (amended): for the 3x3 image with red rows [0,0,0], [0,0,0],
[255,255,255] the code accumulates gx = 0 at the middle pixel; and the
conversion of line 80 does not clamp: for the mask responses gx = 0,
gy = 1020 the truncated quotient is 340 and the byte it yields is
340 mod 256 = 84. -/
theorem middle_pixel_gx_and_unclamped_conversion :
    (gradient 3 3 (red_image [0,0,0, 0,0,0, 255,255,255]) 1 1).1 = 0 ∧
    spec_conv spec_Gx 3 3 (red_image [0,0,0, 0,0,0, 255,255,255]) 1 1 = 0 ∧
    spec_conv spec_Gy 3 3 (red_image [0,0,0, 0,0,0, 255,255,255]) 1 1 = 1020 ∧
    magnitude 0 1020 = 340 ∧ to_uchar 340 = 84 := by
  refine ⟨?_, ?_, ?_, ?_, by decide⟩
  · simp [gradient, red_image]
  · simp [spec_conv, spec_Gx, spec_coeff, spec_tap, red_image]
  · simp [spec_conv, spec_Gy, spec_coeff, spec_tap, red_image]
  · rw [magnitude_eq 0 1020 1040400 1020 (by norm_num) (by norm_num) (by norm_num)]

/-- C4 (counterexample): for the 3x3 image with red rows [0,0,255],
[0,0,255], [0,255,255] the code accumulates gx = 765, gy = 1020 at the middle
pixel, the truncated quotient is 425, and the stored byte is 169, not
min(255, 425) = 255. -/
theorem stored_byte_not_clamped :
    gradient 3 3 (red_image [0,0,255, 0,0,255, 0,255,255]) 1 1 = (765, 1020) ∧
    ⌊Real.sqrt (((765 : Int) * 765 + 1020 * 1020 : Int) : ℝ) / 3⌋₊ = 425 ∧
    pixel_value 3 3 (red_image [0,0,255, 0,0,255, 0,255,255]) 1 1 = 169 ∧
    pixel_value 3 3 (red_image [0,0,255, 0,0,255, 0,255,255]) 1 1
      ≠ min 255 ⌊Real.sqrt (((765 : Int) * 765 + 1020 * 1020 : Int) : ℝ) / 3⌋₊ := by
  have hg : gradient 3 3 (red_image [0,0,255, 0,0,255, 0,255,255]) 1 1 = (765, 1020) := by
    simp [gradient, red_image]
  have hm : magnitude 765 1020 = 425 := by
    rw [magnitude_eq 765 1020 1625625 1275 (by norm_num) (by norm_num) (by norm_num)]
  have hq : ⌊Real.sqrt (((765 : Int) * 765 + 1020 * 1020 : Int) : ℝ) / 3⌋₊ = 425 := by
    rw [← magnitude_eq_floor, hm]
  have hp : pixel_value 3 3 (red_image [0,0,255, 0,0,255, 0,255,255]) 1 1 = 169 :=
    pixel_value_eq 3 3 _ 1 1 765 1020 425 hg hm
  refine ⟨hg, hq, hp, ?_⟩
  rw [hp, hq]
  decide

/-- C4 (amended): for every pixel the stored byte is the truncated quotient
`⌊√(gx*gx + gy*gy) / 3⌋` of the accumulated gx, gy reduced modulo 256; it
equals min(255, quotient) whenever the quotient is at most 255, and there is
no clamp for a larger quotient. -/
theorem stored_byte_is_quotient_mod_256 (width height : Nat) (input_data : Nat → Nat)
    (x y : Nat) :
    pixel_value width height input_data x y =
      ⌊Real.sqrt ((((gradient width height input_data x y).1
          * (gradient width height input_data x y).1
        + (gradient width height input_data x y).2
          * (gradient width height input_data x y).2 : Int)) : ℝ) / 3⌋₊ % 256 ∧
    (⌊Real.sqrt ((((gradient width height input_data x y).1
          * (gradient width height input_data x y).1
        + (gradient width height input_data x y).2
          * (gradient width height input_data x y).2 : Int)) : ℝ) / 3⌋₊ ≤ 255 →
      pixel_value width height input_data x y =
        min 255 ⌊Real.sqrt ((((gradient width height input_data x y).1
            * (gradient width height input_data x y).1
          + (gradient width height input_data x y).2
            * (gradient width height input_data x y).2 : Int)) : ℝ) / 3⌋₊) := by
  rw [← magnitude_eq_floor]
  refine ⟨rfl, fun hle => ?_⟩
  simp only [pixel_value, to_uchar]
  rw [Nat.min_eq_right hle, Nat.mod_eq_of_lt (by omega)]

/-- C4 (witness): at the middle pixel of the 3x3 image with red rows
[0,0,0], [0,0,0], [255,255,255] the quotient is 170 and the stored byte is
170 = min(255, 170). -/
theorem stored_byte_is_quotient_mod_256_witness :
    pixel_value 3 3 (red_image [0,0,0, 0,0,0, 255,255,255]) 1 1 = 170 := by
  have hg : gradient 3 3 (red_image [0,0,0, 0,0,0, 255,255,255]) 1 1 = (0, 510) := by
    simp [gradient, red_image]
  have hm : magnitude 0 510 = 170 := by
    rw [magnitude_eq 0 510 260100 510 (by norm_num) (by norm_num) (by norm_num)]
  have key := stored_byte_is_quotient_mod_256 3 3 (red_image [0,0,0, 0,0,0, 255,255,255]) 1 1
  rw [← magnitude_eq_floor, hg] at key
  have key2 := key.2
  rw [hm] at key2
  exact (key2 (by norm_num)).trans (by norm_num)

/-! ## The band scheduler (C5, C7) -/

/-- C5: for every height and every worker count n ≥ 1 (so in particular for
1 ≤ n ≤ height, height > 0) the bands of `main` are contiguous (band 0
starts at row 0, each band ends where the next starts, the last ends at
`height`, no band ends before it starts), pairwise disjoint, and cover
exactly the rows `[0, height)`: every row lies in exactly one band. -/
theorem bands_partition_rows (height num_threads : Nat) (hn : 1 ≤ num_threads) :
    band_start height num_threads 0 = 0 ∧
    (∀ i, i + 1 < num_threads →
      band_end height num_threads i = band_start height num_threads (i + 1)) ∧
    band_end height num_threads (num_threads - 1) = height ∧
    (∀ i, i < num_threads →
      band_start height num_threads i ≤ band_end height num_threads i) ∧
    (∀ i j, i < num_threads → j < num_threads → i ≠ j → ∀ r,
      ¬ ((band_start height num_threads i ≤ r ∧ r < band_end height num_threads i) ∧
         (band_start height num_threads j ≤ r ∧ r < band_end height num_threads j))) ∧
    (∀ r, r < height ↔ ∃ i, i < num_threads ∧
      band_start height num_threads i ≤ r ∧ r < band_end height num_threads i) ∧
    (∀ r, r < height → ∃! i, i < num_threads ∧
      band_start height num_threads i ≤ r ∧ r < band_end height num_threads i) := by
  refine ⟨by simp [band_start], ?_, band_end_last _ _, ?_, ?_, ?_, ?_⟩
  · intro i hi
    rw [band_end_of_not_last _ _ _ hi, band_start_eq]
  · intro i hi
    exact band_start_le_end _ _ _ hi
  · intro i j hi hj hne r hr
    exact band_disjoint height num_threads i j r hi hj hne hr.1 hr.2
  · intro r
    constructor
    · exact band_cover height num_threads r hn
    · rintro ⟨i, hi, -, h2⟩
      exact lt_of_lt_of_le h2 (band_end_le_height _ _ _ hi)
  · intro r hr
    obtain ⟨i, hi, hri⟩ := band_cover height num_threads r hn hr
    refine ⟨i, ⟨hi, hri⟩, ?_⟩
    rintro j ⟨hj, hrj⟩
    by_contra hne
    exact band_disjoint height num_threads j i r hj hi hne hrj hri

/-- C5 (witness): height 10 and 3 workers give the bands [0,3), [3,6),
[6,10). -/
theorem bands_partition_rows_witness :
    (1 ≤ 3) ∧
    (band_start 10 3 0, band_end 10 3 0) = (0, 3) ∧
    (band_start 10 3 1, band_end 10 3 1) = (3, 6) ∧
    (band_start 10 3 2, band_end 10 3 2) = (6, 10) ∧
    (∀ r, r < 10 → ∃! i, i < 3 ∧ band_start 10 3 i ≤ r ∧ r < band_end 10 3 i) :=
  ⟨by decide, by decide, by decide, by decide,
    (bands_partition_rows 10 3 (by decide)).2.2.2.2.2.2⟩

/-- C7: with q = height / n, each band i in 0..n-2 is exactly [i*q, (i+1)*q)
and has q rows, and the last band is [(n-1)*q, height) and has
q + (height mod n) rows. -/
theorem band_sizes (height num_threads : Nat) (hn : 1 ≤ num_threads) :
    (∀ i, i + 2 ≤ num_threads →
      band_start height num_threads i = i * (height / num_threads) ∧
      band_end height num_threads i = (i + 1) * (height / num_threads) ∧
      band_end height num_threads i - band_start height num_threads i
        = height / num_threads) ∧
    band_start height num_threads (num_threads - 1)
      = (num_threads - 1) * (height / num_threads) ∧
    band_end height num_threads (num_threads - 1) = height ∧
    band_start height num_threads (num_threads - 1)
      + (height / num_threads + height % num_threads) = height ∧
    band_end height num_threads (num_threads - 1)
      - band_start height num_threads (num_threads - 1)
      = height / num_threads + height % num_threads := by
  have hsum : band_start height num_threads (num_threads - 1)
      + (height / num_threads + height % num_threads) = height := by
    rw [band_start_eq]
    obtain ⟨m, rfl⟩ : ∃ m, num_threads = m + 1 := ⟨num_threads - 1, by omega⟩
    have h := Nat.div_add_mod height (m + 1)
    rw [Nat.add_sub_cancel]
    rw [Nat.add_mul, Nat.one_mul] at h
    generalize height / (m + 1) = q at h ⊢
    generalize height % (m + 1) = r at h ⊢
    generalize m * q = a at h ⊢
    omega
  refine ⟨?_, rfl, band_end_last _ _, hsum, ?_⟩
  · intro i hi
    refine ⟨rfl, band_end_of_not_last _ _ _ (by omega), ?_⟩
    rw [band_end_of_not_last _ _ _ (by omega), band_start_eq, Nat.succ_mul]
    exact Nat.add_sub_cancel_left _ _
  · rw [band_end_last]
    generalize band_start height num_threads (num_threads - 1) = a at hsum ⊢
    generalize height / num_threads = q at hsum ⊢
    generalize height % num_threads = r at hsum ⊢
    omega

/-- C7 (witness): height 10 and 3 workers, q = 3: bands 0 and 1 have 3 rows,
the last band is [6, 10) with 3 + 1 rows. -/
theorem band_sizes_witness :
    (1 ≤ 3) ∧
    band_end 10 3 0 - band_start 10 3 0 = 3 ∧
    band_end 10 3 1 - band_start 10 3 1 = 3 ∧
    band_end 10 3 2 - band_start 10 3 2 = 10 / 3 + 10 % 3 :=
  ⟨by decide, by decide, by decide, (band_sizes 10 3 (by decide)).2.2.2.2⟩

/-! ## Bands and buffers (C6, C8 - C10) -/

/-- C6: for every input memory, dimensions and worker count n ≥ 1, running
`process_image` on the n scheduled bands one after the other in any order
(any permutation of the workers 0..n-1) leaves the same output memory as one
`process_image` on the single band [0, height); and on the width*height
output bytes the result is the same whatever the output memories held before
(`other` is any other initial content). -/
theorem bands_any_order_eq_single_band (width height num_threads : Nat)
    (input_data output_data : Nat → Nat) (order : List Nat)
    (hn : 1 ≤ num_threads) (hperm : List.Perm order (List.range num_threads)) :
    run_workers width height num_threads input_data order output_data
      = (process_image
          { start_row := 0, end_row := height, width := width, height := height,
            input_data := input_data, output_data := output_data }).output_data ∧
    ∀ (other : Nat → Nat) (j : Nat), j < width * height →
      run_workers width height num_threads input_data order output_data j
        = (process_image
            { start_row := 0, end_row := height, width := width, height := height,
              input_data := input_data, output_data := other }).output_data j := by
  have inside : ∀ j, j < height * width →
      run_workers width height num_threads input_data order output_data j
        = pixel_value width height input_data (j % width) (j / width) := by
    intro j hj
    obtain ⟨i, hi, hb⟩ := band_cover_index width height num_threads j hn hj
    exact run_workers_inside width height num_threads input_data order output_data j
      ⟨i, hperm.mem_iff.mpr (List.mem_range.mpr hi), hb⟩
  constructor
  · funext j
    rw [process_image_apply]
    simp only
    by_cases hj : j < height * width
    · rw [if_pos ⟨by omega, hj⟩]
      exact inside j hj
    · rw [if_neg (fun h => hj h.2)]
      apply run_workers_outside
      intro i hi hb
      have hlt : i < num_threads := List.mem_range.mp (hperm.mem_iff.mp hi)
      have := Nat.mul_le_mul_right width (band_end_le_height height num_threads i hlt)
      omega
  · intro other j hj
    rw [Nat.mul_comm] at hj
    rw [process_image_apply]
    simp only
    rw [if_pos ⟨by omega, hj⟩]
    exact inside j hj

/-- C6 (witness): a 2x3 image, 2 workers run in the order 1, 0. -/
theorem bands_any_order_eq_single_band_witness :
    (1 ≤ 2) ∧ List.Perm [1, 0] (List.range 2) ∧
    run_workers 2 3 2 (red_image [5, 9, 200, 7, 0, 31]) [1, 0] (fun _ => 77)
      = (process_image
          { start_row := 0, end_row := 3, width := 2, height := 3,
            input_data := red_image [5, 9, 200, 7, 0, 31],
            output_data := fun _ => 77 }).output_data :=
  ⟨by decide, List.Perm.swap 0 1 [],
    (bands_any_order_eq_single_band 2 3 2 (red_image [5, 9, 200, 7, 0, 31]) (fun _ => 77)
      [1, 0] (by decide) (List.Perm.swap 0 1 [])).1⟩

/-- For every image at least 2 high the pixel (1, height-1), which exists as soon
as the width is at least 2, reads
the byte just past the input buffer. -/
theorem read_past_buffer (width height : Nat) (hh : 2 ≤ height) :
    3 * (width * height) ∈ read_indices width height 1 (height - 1) := by
  unfold read_indices
  rw [if_pos ⟨by omega, by omega⟩, List.mem_append]
  left
  have e : 3 * ((height - 1 + 1) * width + 1 - 1) = 3 * (width * height) := by
    rw [Nat.sub_add_cancel (by omega), Nat.add_sub_cancel, Nat.mul_comm height width]
  simp only [List.mem_cons]
  right; right; right; right; right; left
  exact e.symm

/-- C8 (code defect): in a 2x2 image (12 input bytes) pixel (1,1) reads index
12, and in a 3x3 image (27 input bytes) pixel (2,1) reads index 27; the read
decides the result: two memories that agree on the 12 bytes of a 2x2 buffer
give different accumulators at pixel (1,1). -/
theorem read_index_outside_input_buffer :
    12 ∈ read_indices 2 2 1 1 ∧ ¬ (12 < 3 * 2 * 2) ∧
    27 ∈ read_indices 3 3 2 1 ∧ ¬ (27 < 3 * 3 * 3) ∧
    (∀ i, i < 3 * 2 * 2 → red_image [0, 0, 0, 0] i = red_image [0, 0, 0, 0, 9] i) ∧
    gradient 2 2 (red_image [0, 0, 0, 0]) 1 1 = (0, 0) ∧
    gradient 2 2 (red_image [0, 0, 0, 0, 9]) 1 1 = (0, -9) := by
  refine ⟨by decide, by decide, by decide, by decide, by decide, ?_, ?_⟩
  · simp [gradient, red_image]
  · simp [gradient, red_image]

/-- C9: `process_image` leaves every output byte outside
[start_row*width, end_row*width) as it was, leaves the input memory as it
was, and run on a zero-row band leaves the whole output memory as it was. -/
theorem process_image_frame (ta : thread_args_t) :
    (∀ j, ¬ (ta.start_row * ta.width ≤ j ∧ j < ta.end_row * ta.width) →
      (process_image ta).output_data j = ta.output_data j) ∧
    (process_image ta).input_data = ta.input_data ∧
    (ta.start_row = ta.end_row → (process_image ta).output_data = ta.output_data) := by
  refine ⟨?_, rfl, ?_⟩
  · intro j hj
    rw [process_image_apply, if_neg hj]
  · intro hse
    funext j
    rw [process_image_apply, if_neg (by rw [hse]; omega)]

/-- C9 (witness): the band [1,2) of a 2x3 image changes no byte outside
[2,4), here byte 4; and the zero-row band [2,2) changes nothing. -/
theorem process_image_frame_witness :
    (process_image
      { start_row := 1, end_row := 2, width := 2, height := 3,
        input_data := red_image [5, 9, 200, 7, 0, 31],
        output_data := fun _ => 77 }).output_data 4 = 77 ∧
    (process_image
      { start_row := 2, end_row := 2, width := 2, height := 3,
        input_data := red_image [5, 9, 200, 7, 0, 31],
        output_data := fun _ => 77 }).output_data = fun _ => 77 :=
  ⟨(process_image_frame
      { start_row := 1, end_row := 2, width := 2, height := 3,
        input_data := red_image [5, 9, 200, 7, 0, 31],
        output_data := fun _ => 77 }).1 4 (by decide),
   (process_image_frame
      { start_row := 2, end_row := 2, width := 2, height := 3,
        input_data := red_image [5, 9, 200, 7, 0, 31],
        output_data := fun _ => 77 }).2.2 rfl⟩

/-- What holds on the code: two input memories that agree on the red sample
of every pixel (byte 3*k, k < width*height) and also hold the same bytes
past the buffer give the same accumulators, the same stored bytes and the
same output memory, whatever their green and blue bytes. -/
theorem output_depends_on_red_only (width height : Nat) (a b : Nat → Nat)
    (hred : ∀ k, k < width * height → a (3 * k) = b (3 * k))
    (hpast : ∀ i, 3 * (width * height) ≤ i → a i = b i) :
    (∀ x y, gradient width height a x y = gradient width height b x y) ∧
    (∀ x y, pixel_value width height a x y = pixel_value width height b x y) ∧
    (∀ (start_row end_row : Nat) (output_data : Nat → Nat),
      (process_image
        { start_row := start_row, end_row := end_row, width := width, height := height,
          input_data := a, output_data := output_data }).output_data
      = (process_image
        { start_row := start_row, end_row := end_row, width := width, height := height,
          input_data := b, output_data := output_data }).output_data) := by
  have hg : ∀ x y, gradient width height a x y = gradient width height b x y := by
    intro x y
    apply gradient_congr
    intro i hi
    obtain ⟨k, rfl⟩ := read_indices_mul_three width height x y i hi
    by_cases hk : k < width * height
    · exact hred k hk
    · exact hpast (3 * k) (by omega)
  have hp : ∀ x y, pixel_value width height a x y = pixel_value width height b x y := by
    intro x y
    unfold pixel_value
    rw [hg x y]
  refine ⟨hg, hp, ?_⟩
  intro start_row end_row output_data
  funext j
  rw [process_image_apply, process_image_apply]
  simp only
  rw [hp]

/-- C10 (code defect): two 2x2 input buffers with the same red samples 10, 20,
30, 40, one with green and blue bytes 0 and one with green and blue bytes
99, followed in memory by the byte 0 and by the byte 9: they agree on every
red sample of the image, yet at pixel (1,1), which reads index 12 past the
buffer, the code stores 24 for the first and 27 for the second. -/
theorem same_red_samples_different_output :
    (∀ k, k < 2 * 2 →
      (fun i : Nat => if i % 3 = 0 then [10, 20, 30, 40].getD (i / 3) 0 else 0) (3 * k)
        = (fun i : Nat => if i < 12 then (if i % 3 = 0 then [10, 20, 30, 40].getD (i / 3) 0
                            else 99) else 9) (3 * k)) ∧
    pixel_value 2 2
      (fun i : Nat => if i % 3 = 0 then [10, 20, 30, 40].getD (i / 3) 0 else 0) 1 1 = 24 ∧
    pixel_value 2 2
      (fun i : Nat => if i < 12 then (if i % 3 = 0 then [10, 20, 30, 40].getD (i / 3) 0
                        else 99) else 9) 1 1 = 27 := by
  refine ⟨by decide, ?_, ?_⟩
  · have hg : gradient 2 2
        (fun i : Nat => if i % 3 = 0 then [10, 20, 30, 40].getD (i / 3) 0 else 0) 1 1
        = (20, -70) := by
      simp [gradient]
    exact pixel_value_eq 2 2 _ 1 1 20 (-70) 24 hg
      (magnitude_eq 20 (-70) 5300 72 (by norm_num) (by norm_num) (by norm_num))
  · have hg : gradient 2 2
        (fun i : Nat => if i < 12 then (if i % 3 = 0 then [10, 20, 30, 40].getD (i / 3) 0
                          else 99) else 9) 1 1
        = (20, -79) := by
      simp [gradient]
    exact pixel_value_eq 2 2 _ 1 1 20 (-79) 27 hg
      (magnitude_eq 20 (-79) 6641 81 (by norm_num) (by norm_num) (by norm_num))

/-! ## Value ranges and special pixels (C15, C16, C19, C20) -/

/-- The byte `process_image` leaves at pixel `(x, y)` of its band. -/
theorem process_image_at (ta : thread_args_t) (x y : Nat)
    (hs : ta.start_row ≤ y) (he : y < ta.end_row) (hx : x < ta.width) :
    (process_image ta).output_data (y * ta.width + x)
      = pixel_value ta.width ta.height ta.input_data x y := by
  have h1 : ta.start_row * ta.width ≤ y * ta.width := Nat.mul_le_mul_right _ hs
  have h2 : (y + 1) * ta.width ≤ ta.end_row * ta.width := Nat.mul_le_mul_right _ he
  rw [Nat.succ_mul] at h2
  have hr := row_index ta.width y (y * ta.width + x) (by omega) (by omega)
  rw [process_image_apply, if_pos ⟨by omega, by omega⟩, hr.1, hr.2, Nat.add_sub_cancel_left]

/-- At an interior pixel every pixel the kernel reads lies inside the image. -/
theorem interior_reads_inside (width height x y : Nat)
    (hx1 : 1 ≤ x) (hx2 : x + 2 ≤ width) (hy2 : y + 2 ≤ height) :
    (y-1)*width+x-1 < width*height ∧ (y-1)*width+x+1 < width*height ∧
    y*width+x-1 < width*height ∧ y*width+x+1 < width*height ∧
    (y+1)*width+x-1 < width*height ∧ (y+1)*width+x < width*height ∧
    (y+1)*width+x+1 < width*height := by
  have e1 : (y + 2) * width ≤ height * width := Nat.mul_le_mul_right _ hy2
  have e2 : (y + 2) * width = y * width + width + width := by ring
  have e3 : (y + 1) * width = y * width + width := by ring
  have e4 : (y - 1) * width ≤ y * width := Nat.mul_le_mul_right _ (Nat.sub_le y 1)
  rw [Nat.mul_comm width height]
  rw [e2] at e1
  rw [e3]
  refine ⟨?_, ?_, ?_, ?_, ?_, ?_, ?_⟩ <;> omega

/-- C15 (counterexample): for the 3x3 image with red rows [0,0,0], [0,0,255],
[0,255,255], all samples in 0..255, the code accumulates gx = 510, gy = 1020
at the middle pixel and the truncated quotient is 380, above 255. -/
theorem quotient_exceeds_255 :
    (∀ i, red_image [0,0,0, 0,0,255, 0,255,255] i ≤ 255) ∧
    gradient 3 3 (red_image [0,0,0, 0,0,255, 0,255,255]) 1 1 = (510, 1020) ∧
    magnitude 510 1020 = 380 ∧
    ¬ (magnitude (gradient 3 3 (red_image [0,0,0, 0,0,255, 0,255,255]) 1 1).1
          (gradient 3 3 (red_image [0,0,0, 0,0,255, 0,255,255]) 1 1).2 ≤ 255) := by
  have hg : gradient 3 3 (red_image [0,0,0, 0,0,255, 0,255,255]) 1 1 = (510, 1020) := by
    simp [gradient, red_image]
  have hm : magnitude 510 1020 = 380 := by
    rw [magnitude_eq 510 1020 1300500 1140 (by norm_num) (by norm_num) (by norm_num)]
  refine ⟨red_image_le _ 255 (by decide), hg, hm, ?_⟩
  rw [hg, hm]
  decide

/-- C15 (amended): for every input whose samples are in 0..255 and every
pixel, the truncated quotient `⌊√(gx*gx + gy*gy) / 3⌋` lies in 0..425; it is
not confined to 0..255. -/
theorem quotient_le_425 (width height : Nat) (input_data : Nat → Nat) (x y : Nat)
    (hb : ∀ i, input_data i ≤ 255) :
    magnitude (gradient width height input_data x y).1
      (gradient width height input_data x y).2 ≤ 425 := by
  obtain ⟨h1, h2, h3, h4⟩ := gradient_bounds width height input_data x y hb
  exact magnitude_le _ _ (sum_sq_le _ _ h1 h2 h3 h4)

/-- C15 (witness): the bound 425 is met at the middle pixel of the 3x3 image
with red rows [0,0,255], [0,0,255], [0,255,255]. -/
theorem quotient_le_425_witness :
    (∀ i, red_image [0,0,255, 0,0,255, 0,255,255] i ≤ 255) ∧
    magnitude (gradient 3 3 (red_image [0,0,255, 0,0,255, 0,255,255]) 1 1).1
      (gradient 3 3 (red_image [0,0,255, 0,0,255, 0,255,255]) 1 1).2 ≤ 425 :=
  ⟨red_image_le _ 255 (by decide),
    quotient_le_425 3 3 (red_image [0,0,255, 0,0,255, 0,255,255]) 1 1
      (red_image_le _ 255 (by decide))⟩

/-- C16: in an image at least 3 wide and 3 high whose red samples all equal
one value v, the accumulators are (0, 0) and the stored byte is 0 at every
interior pixel, for every band that holds the pixel's row. -/
theorem uniform_interior_zero (width height v : Nat) (input_data : Nat → Nat) (x y : Nat)
    (hw : 3 ≤ width) (hh : 3 ≤ height)
    (hred : ∀ k, k < width * height → input_data (3 * k) = v)
    (hx1 : 1 ≤ x) (hx2 : x ≤ width - 2) (hy1 : 1 ≤ y) (hy2 : y ≤ height - 2) :
    gradient width height input_data x y = (0, 0) ∧
    pixel_value width height input_data x y = 0 ∧
    ∀ (start_row end_row : Nat) (output_data : Nat → Nat),
      start_row ≤ y → y < end_row →
      (process_image
        { start_row := start_row, end_row := end_row, width := width, height := height,
          input_data := input_data, output_data := output_data }).output_data (y * width + x)
        = 0 := by
  obtain ⟨r1, r2, r3, r4, r5, r6, r7⟩ :=
    interior_reads_inside width height x y hx1 (by omega) (by omega)
  have hg : gradient width height input_data x y = (0, 0) := by
    rw [gradient_both_blocks width height input_data x y (by omega) (by omega) (by omega),
      hred _ r1, hred _ r2, hred _ r3, hred _ r4, hred _ r5, hred _ r6, hred _ r7]
    refine Prod.ext ?_ ?_ <;> simp only <;> ring
  have hp : pixel_value width height input_data x y = 0 :=
    pixel_value_eq width height input_data x y 0 0 0 hg magnitude_zero
  refine ⟨hg, hp, ?_⟩
  intro start_row end_row output_data hs he
  have := process_image_at
    { start_row := start_row, end_row := end_row, width := width, height := height,
      input_data := input_data, output_data := output_data } x y hs he (by simp only; omega)
  simp only at this
  rw [this, hp]

/-- C16 (witness): the centre pixel (2,2) of the uniform 5x5 image of value
100. -/
theorem uniform_interior_zero_witness :
    pixel_value 5 5 (uniform_image 100) 2 2 = 0 :=
  (uniform_interior_zero 5 5 100 (uniform_image 100) 2 2 (by decide) (by decide)
    (fun _ _ => rfl) (by decide) (by decide) (by decide) (by decide)).2.1

/-- C19: whatever the input memory holds, the accumulators are (0, 0) and the
stored byte is 0 at every left-column pixel (0, y), and at every pixel (x, 0)
of an image of height 1; `process_image` leaves 0 at those output bytes. -/
theorem left_column_and_single_row_zero (width height : Nat) (input_data : Nat → Nat) :
    (∀ y, gradient width height input_data 0 y = (0, 0) ∧
          pixel_value width height input_data 0 y = 0) ∧
    (∀ x, gradient width 1 input_data x 0 = (0, 0) ∧
          pixel_value width 1 input_data x 0 = 0) ∧
    (∀ (start_row end_row y : Nat) (output_data : Nat → Nat),
      0 < width → start_row ≤ y → y < end_row →
      (process_image
        { start_row := start_row, end_row := end_row, width := width, height := height,
          input_data := input_data, output_data := output_data }).output_data (y * width + 0)
        = 0) ∧
    (∀ (x : Nat) (output_data : Nat → Nat), x < width →
      (process_image
        { start_row := 0, end_row := 1, width := width, height := 1,
          input_data := input_data, output_data := output_data }).output_data (0 * width + x)
        = 0) := by
  have hcol : ∀ y, gradient width height input_data 0 y = (0, 0) ∧
      pixel_value width height input_data 0 y = 0 := by
    intro y
    have hg := gradient_no_block width height input_data 0 y (Or.inl rfl)
    exact ⟨hg, pixel_value_eq width height input_data 0 y 0 0 0 hg magnitude_zero⟩
  have hrow : ∀ x, gradient width 1 input_data x 0 = (0, 0) ∧
      pixel_value width 1 input_data x 0 = 0 := by
    intro x
    have hg := gradient_no_block width 1 input_data x 0 (Or.inr ⟨rfl, le_refl 1⟩)
    exact ⟨hg, pixel_value_eq width 1 input_data x 0 0 0 0 hg magnitude_zero⟩
  refine ⟨hcol, hrow, ?_, ?_⟩
  · intro start_row end_row y output_data hw hs he
    have := process_image_at
      { start_row := start_row, end_row := end_row, width := width, height := height,
        input_data := input_data, output_data := output_data } 0 y hs he hw
    simp only at this
    rw [this, (hcol y).2]
  · intro x output_data hx
    have := process_image_at
      { start_row := 0, end_row := 1, width := width, height := 1,
        input_data := input_data, output_data := output_data } x 0 (le_refl 0)
        Nat.zero_lt_one hx
    simp only at this
    rw [this, (hrow x).2]

/-- C20: with every sample in 0..255 the accumulators satisfy |gx| ≤ 765 and
|gy| ≤ 1020, so gx*gx + gy*gy ≤ 1625625 < 2^31 and the 32-bit signed
expression does not overflow; the 3x3 image with red rows [0,0,255],
[0,0,255], [0,255,255] attains gx = 765 and gy = 1020 together. -/
theorem accumulator_bounds (width height : Nat) (input_data : Nat → Nat) (x y : Nat)
    (hb : ∀ i, input_data i ≤ 255) :
    |(gradient width height input_data x y).1| ≤ 765 ∧
    |(gradient width height input_data x y).2| ≤ 1020 ∧
    (gradient width height input_data x y).1 * (gradient width height input_data x y).1
      + (gradient width height input_data x y).2 * (gradient width height input_data x y).2
      ≤ 1625625 ∧
    (1625625 : Int) < 2 ^ 31 ∧
    ((∀ i, red_image [0,0,255, 0,0,255, 0,255,255] i ≤ 255) ∧
      gradient 3 3 (red_image [0,0,255, 0,0,255, 0,255,255]) 1 1 = (765, 1020)) := by
  obtain ⟨h1, h2, h3, h4⟩ := gradient_bounds width height input_data x y hb
  refine ⟨abs_le.mpr ⟨h1, h2⟩, abs_le.mpr ⟨h3, h4⟩, sum_sq_le _ _ h1 h2 h3 h4,
    by norm_num, red_image_le _ 255 (by decide), ?_⟩
  simp [gradient, red_image]

/-- C20 (witness): the bounds at the middle pixel of the 3x3 image with red
rows [0,0,0], [0,0,0], [255,255,255]. -/
theorem accumulator_bounds_witness :
    (∀ i, red_image [0,0,0, 0,0,0, 255,255,255] i ≤ 255) ∧
    |(gradient 3 3 (red_image [0,0,0, 0,0,0, 255,255,255]) 1 1).1| ≤ 765 ∧
    |(gradient 3 3 (red_image [0,0,0, 0,0,0, 255,255,255]) 1 1).2| ≤ 1020 :=
  ⟨red_image_le _ 255 (by decide),
    (accumulator_bounds 3 3 (red_image [0,0,0, 0,0,0, 255,255,255]) 1 1
      (red_image_le _ 255 (by decide))).1,
    (accumulator_bounds 3 3 (red_image [0,0,0, 0,0,0, 255,255,255]) 1 1
      (red_image_le _ 255 (by decide))).2.1⟩

/-! ## Empty and non-empty bands (C14, C18) -/

/-- C14 (counterexample): with height 4 and 16 workers the last band, index
15, is [0, 4) and holds every row, and band 0 is empty: the empty bands are
not the trailing ones. -/
theorem last_band_not_empty :
    0 < 4 ∧ 4 < 16 ∧
    band_start 4 16 15 = 0 ∧ band_end 4 16 15 = 4 ∧
    band_start 4 16 0 = band_end 4 16 0 ∧
    ¬ (band_start 4 16 15 = band_end 4 16 15) := by
  decide

/-- C14 (amended): for 0 < height < worker_count the empty bands are the
leading ones: every band before the last is the empty band [0, 0), and the
last band (index worker_count-1) is [0, height) and holds every row. -/
theorem small_height_bands (height num_threads : Nat) (h0 : 0 < height)
    (hlt : height < num_threads) :
    (∀ i, i + 1 < num_threads →
      band_start height num_threads i = 0 ∧ band_end height num_threads i = 0) ∧
    band_start height num_threads (num_threads - 1) = 0 ∧
    band_end height num_threads (num_threads - 1) = height ∧
    band_start height num_threads (num_threads - 1)
      < band_end height num_threads (num_threads - 1) := by
  have hq : height / num_threads = 0 := Nat.div_eq_of_lt hlt
  have hs : ∀ i, band_start height num_threads i = 0 := by
    intro i
    rw [band_start_eq, hq, Nat.mul_zero]
  refine ⟨?_, hs _, band_end_last _ _, ?_⟩
  · intro i hi
    refine ⟨hs i, ?_⟩
    rw [band_end_of_not_last _ _ _ hi, hq, Nat.mul_zero]
  · rw [hs, band_end_last]
    exact h0

/-- C14 (witness): height 4 and the 16 workers of `main`. -/
theorem small_height_bands_witness :
    0 < 4 ∧ 4 < MAX_THREADS ∧
    band_start 4 MAX_THREADS (MAX_THREADS - 1) = 0 ∧
    band_end 4 MAX_THREADS (MAX_THREADS - 1) = 4 :=
  ⟨by decide, by decide,
    (small_height_bands 4 MAX_THREADS (by decide) (by decide)).2.1,
    (small_height_bands 4 MAX_THREADS (by decide) (by decide)).2.2.1⟩

/-- C18: for 1 ≤ worker_count ≤ height every band is non-empty
(start_row < end_row); and a band with end_row ≤ start_row exists only when
height < worker_count. -/
theorem bands_nonempty (height num_threads : Nat) (h1 : 1 ≤ num_threads) :
    (num_threads ≤ height → ∀ i, i < num_threads →
      band_start height num_threads i < band_end height num_threads i) ∧
    (∀ i, i < num_threads →
      band_end height num_threads i ≤ band_start height num_threads i →
      height < num_threads) := by
  have key : num_threads ≤ height → ∀ i, i < num_threads →
      band_start height num_threads i < band_end height num_threads i := by
    intro hn i hi
    have hq : 0 < height / num_threads := Nat.div_pos hn (by omega)
    rw [band_start_eq]
    by_cases hl : i + 1 < num_threads
    · rw [band_end_of_not_last _ _ _ hl, Nat.succ_mul]
      omega
    · have hi' : i = num_threads - 1 := by omega
      have hle := mul_div_le_of_le height num_threads (i + 1) (by omega)
      rw [Nat.succ_mul] at hle
      rw [hi', band_end_last]
      rw [hi'] at hle
      omega
  refine ⟨key, ?_⟩
  intro i hi hempty
  by_contra hge
  have := key (by omega) i hi
  omega

/-- C18 (witness): height 10 and 3 workers, band 2. -/
theorem bands_nonempty_witness :
    (1 ≤ 3) ∧ (3 ≤ 10) ∧ band_start 10 3 2 < band_end 10 3 2 :=
  ⟨by decide, by decide, (bands_nonempty 10 3 (by decide)).1 (by decide) 2 (by decide)⟩

/-! ## The whole run (C11, C17) -/

/-- After the run every byte below `height*width` holds its pixel value. -/
theorem run_main_inside (width height num_threads : Nat) (input_data output_data : Nat → Nat)
    (j : Nat) (hn : 1 ≤ num_threads) (hj : j < height * width) :
    run_main width height num_threads input_data output_data j
      = pixel_value width height input_data (j % width) (j / width) := by
  obtain ⟨i, hi, hb⟩ := band_cover_index width height num_threads j hn hj
  exact run_workers_inside width height num_threads input_data (List.range num_threads)
    output_data j ⟨i, List.mem_range.mpr hi, hb⟩

/-- A pixel all of whose reads return 0 gets the byte 0. -/
theorem pixel_zero_of_zero_reads (width height : Nat) (input_data : Nat → Nat) (x y : Nat)
    (hz : ∀ i ∈ read_indices width height x y, input_data i = 0) :
    pixel_value width height input_data x y = 0 := by
  have hg : gradient width height input_data x y = (0, 0) := by
    rw [gradient_congr width height x y input_data (fun _ => 0) hz]
    unfold gradient
    by_cases h1 : 0 < x ∧ 0 < y <;> by_cases h2 : 0 < x ∧ (y : Int) < (height : Int) - 1 <;>
      simp [h1, h2]
  exact pixel_value_eq width height input_data x y 0 0 0 hg magnitude_zero

/-- C11 (code defect): a 4x4 input whose 48 buffer bytes are all zero, with
the byte that follows the buffer in memory equal to 9: pixel (1,3) reads
index 48, accumulates gy = -9, and the run of `main` leaves 3 at output
byte 13. -/
theorem black_image_nonzero_output :
    (∀ i, i < 3 * 4 * 4 → (fun k : Nat => if k = 48 then 9 else 0) i = 0) ∧
    48 ∈ read_indices 4 4 1 3 ∧
    gradient 4 4 (fun k : Nat => if k = 48 then 9 else 0) 1 3 = (0, -9) ∧
    run_main 4 4 MAX_THREADS (fun k : Nat => if k = 48 then 9 else 0) (fun _ => 0) 13 = 3 := by
  have hg : gradient 4 4 (fun k : Nat => if k = 48 then 9 else 0) 1 3 = (0, -9) := by
    simp [gradient]
  refine ⟨by decide, by decide, hg, ?_⟩
  rw [run_main_inside 4 4 MAX_THREADS _ _ 13 (by decide) (by decide)]
  exact pixel_value_eq 4 4 _ 1 3 0 (-9) 3 hg
    (magnitude_eq 0 (-9) 81 9 (by norm_num) (by norm_num) (by norm_num))

theorem replay_append (output_data : Nat → Nat) (l1 l2 : List (Nat × Nat)) :
    replay output_data (l1 ++ l2) = replay (replay output_data l1) l2 :=
  List.foldl_append _ _ _ _

theorem process_row_eq_replay (width height : Nat) (input_data : Nat → Nat) (y : Nat)
    (output_data : Nat → Nat) :
    process_row width height input_data y output_data
      = replay output_data (row_trace width height input_data y) := by
  unfold process_row replay row_trace
  rw [List.foldl_map]

theorem rows_fold_eq_replay (width height : Nat) (input_data : Nat → Nat) (rows : List Nat) :
    ∀ output_data : Nat → Nat,
    rows.foldl (fun out y => process_row width height input_data y out) output_data
      = replay output_data
          (rows.flatMap (fun y => row_trace width height input_data y)) := by
  induction rows with
  | nil => intro output_data; rfl
  | cons y rest ih =>
    intro output_data
    rw [List.foldl_cons, ih, List.flatMap_cons, replay_append, process_row_eq_replay]

/-- `process_image` carries out exactly the assignments of its log. -/
theorem process_image_eq_replay (ta : thread_args_t) :
    (process_image ta).output_data = replay ta.output_data (image_trace ta) := by
  unfold process_image image_trace
  exact rows_fold_eq_replay ta.width ta.height ta.input_data _ ta.output_data

theorem image_trace_thread_args (width height num_threads : Nat)
    (input_data out1 out2 : Nat → Nat) (i : Nat) :
    image_trace (thread_args width height num_threads input_data out1 i)
      = image_trace (thread_args width height num_threads input_data out2 i) := rfl

theorem run_workers_eq_replay (width height num_threads : Nat) (input_data : Nat → Nat)
    (init : Nat → Nat) (order : List Nat) :
    ∀ output_data : Nat → Nat,
    run_workers width height num_threads input_data order output_data
      = replay output_data
          (order.flatMap
            (fun i => image_trace (thread_args width height num_threads input_data init i))) := by
  induction order with
  | nil => intro output_data; rfl
  | cons i rest ih =>
    intro output_data
    rw [run_workers_cons, ih, List.flatMap_cons, replay_append, process_image_eq_replay,
      image_trace_thread_args width height num_threads input_data output_data init i]
    rfl

/-- The run of `main` carries out exactly the assignments of its log. -/
theorem run_main_eq_replay (width height num_threads : Nat)
    (input_data output_data : Nat → Nat) :
    run_main width height num_threads input_data output_data
      = replay output_data (run_trace width height num_threads input_data output_data) :=
  run_workers_eq_replay width height num_threads input_data output_data _ output_data

theorem row_trace_indices (width height : Nat) (input_data : Nat → Nat) (y : Nat) :
    (row_trace width height input_data y).map Prod.fst = List.range' (y * width) width := by
  unfold row_trace
  rw [List.map_map, List.range'_eq_map_range]
  rfl

theorem rows_trace_indices (width height : Nat) (input_data : Nat → Nat) (k : Nat) :
    ∀ s : Nat,
    ((List.range' s k).flatMap (fun y => row_trace width height input_data y)).map Prod.fst
      = List.range' (s * width) (k * width) := by
  induction k with
  | zero => intro s; simp
  | succ k ih =>
    intro s
    rw [List.range'_succ, List.flatMap_cons, List.map_append, ih, row_trace_indices]
    have e1 : (s + 1) * width = s * width + 1 * width := by ring
    have e2 : (k + 1) * width = k * width + width := by ring
    rw [e1, e2, List.range'_append]

/-- The indices `process_image` assigns are those of its rows, in order. -/
theorem image_trace_indices (ta : thread_args_t) :
    (image_trace ta).map Prod.fst
      = List.range' (ta.start_row * ta.width) ((ta.end_row - ta.start_row) * ta.width) :=
  rows_trace_indices ta.width ta.height ta.input_data _ ta.start_row

theorem band_trace_indices (width height num_threads : Nat)
    (input_data output_data : Nat → Nat) (i : Nat) :
    (image_trace (thread_args width height num_threads input_data output_data i)).map Prod.fst
      = List.range' (band_start height num_threads i * width)
          ((band_end height num_threads i - band_start height num_threads i) * width) :=
  image_trace_indices (thread_args width height num_threads input_data output_data i)

theorem mem_band_trace_iff (width height num_threads : Nat)
    (input_data output_data : Nat → Nat) (i j : Nat) (hi : i < num_threads) :
    j ∈ (image_trace (thread_args width height num_threads input_data output_data i)).map
          Prod.fst
      ↔ band_start height num_threads i * width ≤ j ∧
        j < band_end height num_threads i * width := by
  rw [band_trace_indices, List.mem_range'_1, ← Nat.add_mul,
    Nat.add_sub_cancel' (band_start_le_end height num_threads i hi)]

/-- The bands before band `m` assign the indices `0 .. m*q*width - 1` in order. -/
theorem leading_bands_indices (width height num_threads : Nat)
    (input_data output_data : Nat → Nat) (m : Nat) (hm : m + 1 ≤ num_threads) :
    ((List.range m).flatMap
      (fun i => image_trace (thread_args width height num_threads input_data output_data i))).map
        Prod.fst
      = List.range' 0 (m * (height / num_threads) * width) := by
  induction m with
  | zero => simp
  | succ m ih =>
    rw [List.range_succ, List.flatMap_append, List.flatMap_singleton, List.map_append,
      ih (by omega), band_trace_indices, band_end_of_not_last _ _ _ (by omega), band_start_eq,
      Nat.succ_mul, Nat.add_sub_cancel_left]
    have e := List.range'_append 0 (m * (height / num_threads) * width)
      (height / num_threads * width) 1
    rw [Nat.one_mul, Nat.zero_add] at e
    rw [e]
    congr 1
    ring

/-- The assignments of the whole run are to the indices `0 .. width*height - 1`,
each once, in increasing order. -/
theorem run_trace_indices (width height num_threads : Nat)
    (input_data output_data : Nat → Nat) (hn : 1 ≤ num_threads) :
    (run_trace width height num_threads input_data output_data).map Prod.fst
      = List.range (width * height) := by
  obtain ⟨m, rfl⟩ : ∃ m, num_threads = m + 1 := ⟨num_threads - 1, by omega⟩
  unfold run_trace
  rw [List.range_succ, List.flatMap_append, List.flatMap_singleton, List.map_append,
    leading_bands_indices width height (m + 1) input_data output_data m (le_refl _),
    band_trace_indices, band_start_eq]
  have hlast : band_end height (m + 1) m = height := band_end_last height (m + 1)
  rw [hlast]
  have hle : m * (height / (m + 1)) ≤ height := mul_div_le_of_le height (m + 1) m (by omega)
  have e := List.range'_append 0 (m * (height / (m + 1)) * width)
    ((height - m * (height / (m + 1))) * width) 1
  rw [Nat.one_mul, Nat.zero_add] at e
  rw [e, ← Nat.add_mul, Nat.sub_add_cancel hle, List.range_eq_range', Nat.mul_comm]

/-- C17: for every worker count n ≥ 1 (and every width and height, so for
width ≥ 1 and height ≥ 1) the run of `main` is the replay of its log of
assignments; the indices assigned are exactly 0, 1, ..., width*height - 1:
every index below width*height is assigned exactly once, no other index is
assigned, and each index below width*height is assigned by exactly one
band. -/
theorem every_output_byte_written_once (width height num_threads : Nat)
    (input_data output_data : Nat → Nat) (hn : 1 ≤ num_threads) :
    run_main width height num_threads input_data output_data
      = replay output_data (run_trace width height num_threads input_data output_data) ∧
    (run_trace width height num_threads input_data output_data).map Prod.fst
      = List.range (width * height) ∧
    (∀ j, j < width * height →
      ((run_trace width height num_threads input_data output_data).map Prod.fst).count j
        = 1) ∧
    (∀ j, j ∈ (run_trace width height num_threads input_data output_data).map Prod.fst →
      j < width * height) ∧
    (∀ j, j < width * height → ∃! i, i < num_threads ∧
      j ∈ (image_trace
            (thread_args width height num_threads input_data output_data i)).map Prod.fst) := by
  have hidx := run_trace_indices width height num_threads input_data output_data hn
  refine ⟨run_main_eq_replay _ _ _ _ _, hidx, ?_, ?_, ?_⟩
  · intro j hj
    rw [hidx]
    exact List.count_eq_one_of_mem (List.nodup_range _) (List.mem_range.mpr hj)
  · intro j hj
    rw [hidx] at hj
    exact List.mem_range.mp hj
  · intro j hj
    rw [Nat.mul_comm] at hj
    have hw : 0 < width := by
      rcases Nat.eq_zero_or_pos width with h0 | h0
      · subst h0; simp at hj
      · exact h0
    obtain ⟨i, hi, hb⟩ := band_cover_index width height num_threads j hn hj
    refine ⟨i, ⟨hi, (mem_band_trace_iff _ _ _ _ _ i j hi).mpr hb⟩, ?_⟩
    rintro k ⟨hk, hmem⟩
    have hbk := (mem_band_trace_iff _ _ _ _ _ k j hk).mp hmem
    by_contra hne
    exact band_disjoint height num_threads k i (j / width) hk hi hne
      ⟨(Nat.le_div_iff_mul_le hw).mpr hbk.1, (Nat.div_lt_iff_lt_mul hw).mpr hbk.2⟩
      ⟨(Nat.le_div_iff_mul_le hw).mpr hb.1, (Nat.div_lt_iff_lt_mul hw).mpr hb.2⟩

/-- C17 (witness): a 2x3 image and the 16 workers of `main`: the six output
indices are assigned in the order 0, 1, 2, 3, 4, 5. -/
theorem every_output_byte_written_once_witness :
    (1 ≤ MAX_THREADS) ∧
    (run_trace 2 3 MAX_THREADS (red_image [5, 9, 200, 7, 0, 31]) (fun _ => 77)).map Prod.fst
      = List.range (2 * 3) :=
  ⟨by decide,
    (every_output_byte_written_once 2 3 MAX_THREADS (red_image [5, 9, 200, 7, 0, 31])
      (fun _ => 77) (by decide)).2.1⟩

/-! ## Files (C12, C13) -/

theorem header_bytes (width height : Nat) :
    ("P5\n" ++ toString width ++ " " ++ toString height ++ "\n255\n").toList.map Char.toNat
      = [80, 53, 10] ++ (Nat.toDigits 10 width).map Char.toNat ++ [32]
          ++ (Nat.toDigits 10 height).map Char.toNat ++ [10, 50, 53, 53, 10] := by
  have h1 : "P5\n".data = [Char.ofNat 80, Char.ofNat 53, Char.ofNat 10] := by decide
  have h2 : " ".data = [Char.ofNat 32] := by decide
  have h3 : "\n255\n".data
      = [Char.ofNat 10, Char.ofNat 50, Char.ofNat 53, Char.ofNat 53, Char.ofNat 10] := by decide
  have hw : (toString width).data = Nat.toDigits 10 width := rfl
  have hh : (toString height).data = Nat.toDigits 10 height := rfl
  rw [String.toList, String.data_append, String.data_append, String.data_append,
    String.data_append, h1, h2, h3, hw, hh]
  simp only [List.map_append, List.map_cons, List.map_nil]
  rfl

/-- An `int` product that fits gives the `fwrite` count `width * height`. -/
theorem fwrite_count_of_lt (width height : Nat) (hp : width * height < 2147483648) :
    size_t_of_int (int32_wrap ((width : Int) * (height : Int))) = width * height := by
  unfold size_t_of_int int32_wrap
  have h0 : ((width : Int) * (height : Int)) = ((width * height : Nat) : Int) := by
    push_cast; rfl
  rw [h0]
  generalize width * height = p at hp
  omega

/-- C12 (counterexample): for width = height = 65536 the product computed in
`int` is 0, so `save_image` writes the 19 header bytes "P5\n65536 65536\n255\n"
and no payload, not the header followed by 65536*65536 bytes. -/
theorem save_image_product_wraps :
    save_image true 65536 65536 (fun _ => 7)
      = Except.ok (("P5\n65536 65536\n255\n").toList.map Char.toNat) ∧
    (("P5\n65536 65536\n255\n").toList.map Char.toNat).length = 19 ∧
    ¬ (save_image true 65536 65536 (fun _ => 7)
        = Except.ok
            (("P5\n" ++ toString 65536 ++ " " ++ toString 65536 ++ "\n255\n").toList.map
                Char.toNat
              ++ (List.range (65536 * 65536)).map (fun _ => 7))) := by
  have hc : size_t_of_int (int32_wrap (((65536 : Nat) : Int) * ((65536 : Nat) : Int))) = 0 := by
    unfold size_t_of_int int32_wrap
    norm_num
  have hs : save_image true 65536 65536 (fun _ => 7)
      = Except.ok (("P5\n65536 65536\n255\n").toList.map Char.toNat) := by
    unfold save_image
    rw [hc]
    rfl
  refine ⟨hs, by decide, ?_⟩
  rw [hs]
  intro h
  have hl := congrArg (fun e => match e with
    | Except.ok l => l.length
    | Except.error _ => 0) h
  simp only [List.length_append, List.length_map, List.length_range] at hl
  have h19 : (("P5\n65536 65536\n255\n").toList).length = 19 := by decide
  have h19b : (("P5\n" ++ toString 65536 ++ " " ++ toString 65536 ++ "\n255\n").toList).length
      = 19 := by decide
  rw [h19, h19b] at hl
  omega

/-- C12 (amended): when the output file can be opened and the product
width*height fits in `int` (is below 2^31), the bytes `save_image` writes are
the ASCII bytes of "P5\n<width> <height>\n255\n" (both numbers in decimal)
followed by `data[0], ..., data[width*height - 1]` and nothing else: the
payload has width*height bytes and the byte of pixel (x, y) is at payload
position y*width + x. -/
theorem save_image_stream (width height : Nat) (data : Nat → Nat)
    (hp : width * height < 2147483648) :
    save_image true width height data
      = Except.ok
          (("P5\n" ++ toString width ++ " " ++ toString height ++ "\n255\n").toList.map
              Char.toNat
            ++ (List.range (width * height)).map data) ∧
    ((List.range (width * height)).map data).length = width * height ∧
    (∀ x y, x < width → y < height →
      ((List.range (width * height)).map data)[y * width + x]? = some (data (y * width + x))) := by
  refine ⟨?_, by simp, ?_⟩
  · rw [header_bytes]
    unfold save_image
    rw [fwrite_count_of_lt width height hp]
    rfl
  · intro x y hx hy
    have h1 : (y + 1) * width ≤ height * width := Nat.mul_le_mul_right _ hy
    rw [Nat.succ_mul] at h1
    have hlt : y * width + x < width * height := by
      rw [Nat.mul_comm width height]; omega
    rw [List.getElem?_map, List.getElem?_range hlt]
    rfl

/-- C12 (witness): a 2x1 image with the bytes 7 and 9 is written as
"P5\n2 1\n255\n" followed by 7, 9. -/
theorem save_image_stream_witness :
    2 * 1 < 2147483648 ∧
    save_image true 2 1 (fun i => if i = 0 then 7 else 9)
      = Except.ok [80, 53, 10, 50, 32, 49, 10, 50, 53, 53, 10, 7, 9] := by
  refine ⟨by decide, ?_⟩
  rw [(save_image_stream 2 1 (fun i => if i = 0 then 7 else 9) (by decide)).1, header_bytes]
  rfl

/-- A header number below 2^31 is stored unchanged. -/
theorem stored_int_of_lt (v : Nat) (hv : v < 2147483648) :
    int32_wrap (long_clamp (v : Int)) = (v : Int) := by
  unfold int32_wrap long_clamp
  omega

end Sobel
